import Mathlib

/-!
Verification development for the `ev_slotmap` crate: a lock-free,
single-writer / multi-reader concurrent slot map built on double buffering,
per-reader epoch counters, and suppressed-drop (`ManuallyDrop`) value storage.

The reader side (`src/read/mod.rs`, `src/read/factory.rs`), the crate root
(`src/lib.rs`, giving `Operation` and the factory `new`), and `src/inner.rs`
are embedded from the source.  The writer (`WriteHandle`), the real
`read_ref.rs` guard type, and the serde implementation of `Inner` are not
present in the source tree (the `write.rs` / `read_ref.rs` / `impl_serde.rs`
files present are incompatible historical `evmap` variants: a two-argument
`write::new`, `Operation::Add(K, V)` instead of `Operation::Add(V)`, no key
returned from `insert`, none of which type-check against `lib.rs` or the
tests); those parts are modelled from the specification, and each such
definition is marked `Modelled from the spec:` in its doc comment.

Machine integers (`usize`) are modelled as `Nat` with explicit `% 2 ^ 64`
where wrap-around matters.  The atomic pointer cell is an `Option` (`none` is
the null pointer); the sequential semantics models the quiescent-state view a
reader obtains once the writer's call has returned.
-/

namespace EvSlotMap

variable {V : Type}

/-- A slot buffer: the payload of a `one_way_slot_map::SlotMap` keyed by the
internal slot id (`InnerKey.slot_key`, `src/inner.rs`).  Slot `i` holds
`some v` while live and `none` once vacated; ids are never reused (the
container is one-way), so `insert` always appends a fresh slot. -/
abbrev Buf (V : Type) := List (Option V)

/-- The live values of a buffer, in slot order. -/
def bufValues (b : Buf V) : List V := b.filterMap id

/-- `SlotMap::len`: the number of live slots. -/
def bufLen (b : Buf V) : Nat := (bufValues b).length

/-- `SlotMap::get_unbounded`: lookup by internal slot id. -/
def getUnbounded (b : Buf V) (k : Nat) : Option V := (b[k]?).join

/-- `Inner` from `src/inner.rs`: one copy of the slot container plus the
`ready` flag (`ready = false` means the buffer has never been refreshed). -/
structure Inner (V : Type) where
  data : Buf V
  ready : Bool
deriving DecidableEq

/-- `Inner::mark_ready` from `src/inner.rs`. -/
def Inner.mark_ready (i : Inner V) : Inner V := { i with ready := true }

/-- `ReadHandle::handle` (`src/read/mod.rs` lines 136-192), result component:
the guard wraps the `Inner` behind the atomic pointer cell when the cell is
non-null, and is `None` when the cell is null. -/
def handleOf (cell : Option (Inner V)) : Option (Inner V) := cell

/-- `ReadHandle::read` (`src/read/mod.rs` lines 203-213): take a guard, then
return `None` unless the buffer's ready flag is set. -/
def readOf (cell : Option (Inner V)) : Option (Inner V) :=
  match handleOf cell with
  | none => none
  | some inner => if inner.ready then some inner else none

/-- `ReadHandle::get_raw` (`src/read/mod.rs` lines 226-232): guard, ready
check, then `data.get_unbounded(key)`. -/
def get_rawOf (cell : Option (Inner V)) (k : Nat) : Option V :=
  match handleOf cell with
  | none => none
  | some inner => if inner.ready then getUnbounded inner.data k else none

/-- `ReadHandle::get` (`src/read/mod.rs`): `get_raw` with the guarded
reference mapped through the identity-like `user_friendly`. -/
def getOf (cell : Option (Inner V)) (k : Nat) : Option V := get_rawOf cell k

/-- `ReadHandle::len` (`src/read/mod.rs` lines 215-218):
`self.read().map_or(0, |x| x.len())`. -/
def lenOf (cell : Option (Inner V)) : Nat :=
  match readOf cell with
  | none => 0
  | some r => bufLen r.data

/-- `ReadHandle::is_empty` (`src/read/mod.rs` lines 220-223):
`self.read().map_or(true, |x| x.is_empty())`. -/
def is_emptyOf (cell : Option (Inner V)) : Bool :=
  match readOf cell with
  | none => true
  | some r => bufLen r.data == 0

/-- `ReadHandle::contains_key` (`src/read/mod.rs` lines 261-263):
`self.read().map_or(false, |x| x.contains_key(key))`. -/
def contains_keyOf (cell : Option (Inner V)) (k : Nat) : Bool :=
  match readOf cell with
  | none => false
  | some r => (getUnbounded r.data k).isSome

/-- `ReadHandle::is_destroyed` (`src/read/mod.rs` lines 253-255):
`self.handle().is_none()`. -/
def is_destroyedOf (cell : Option (Inner V)) : Bool := (handleOf cell).isNone

/-- `usize` wrap-around modulus (64-bit platform). -/
def usizeW : Nat := 2 ^ 64

/-- The parked bit: `1usize << (mem::size_of::<usize>() * 8 - 1)`
(`src/write.rs` line 110, `src/read/mod.rs` line 187). -/
def highBit : Nat := 2 ^ 63

/-- The epoch state a single reader owns: `my_epoch` is the reader's local
count, `epoch` the value last stored into its shared epoch counter. -/
structure RState where
  myEpoch : Nat
  epoch : Nat
deriving DecidableEq

/-- The memory events of one `ReadHandle::handle` call, in program order. -/
inductive REvent where
  | publish (v : Nat)
  | loadPtr (isNull : Bool)
  | park (v : Nat)
deriving DecidableEq

/-- The pin protocol of `ReadHandle::handle` (`src/read/mod.rs` lines
164-191): `fetch_add(1)` on the local count, release-store the incremented
count to the shared epoch, fence, acquire-load the pointer cell; on a null
pointer, store the count with the parked bit set and return `None`.  The
returned event list records the order of the shared-memory accesses. -/
def handleSteps (s : RState) (cell : Option (Inner V)) :
    RState × Option (Inner V) × List REvent :=
  let c1 := (s.myEpoch + 1) % usizeW
  match cell with
  | some inner =>
      (⟨c1, c1⟩, some inner, [REvent.publish c1, REvent.loadPtr false])
  | none =>
      (⟨c1, c1 ||| highBit⟩, none,
        [REvent.publish c1, REvent.loadPtr true, REvent.park (c1 ||| highBit)])

/-- The writer's per-reader quiescence judgment (`src/write.rs` line 115):
`(now != self.last_epochs[i]) | (now & high_bit != 0) | (now == 0)`. -/
def readerMovedOn (now last : Nat) : Bool :=
  (now != last) || (now &&& highBit != 0) || (now == 0)

/-- One retry of the writer's wait loop (`src/write.rs` lines 122-127):
`if iter != 20 { iter += 1 } else { thread::yield_now() }`.  Returns whether
this retry yields the scheduler, and the next value of `iter`. -/
def retryStep (iter : Nat) : Bool × Nat :=
  if iter != 20 then (false, iter + 1) else (true, iter)

/-- The value of `iter` on entry to retry number `n` (`iter` starts at 0,
`src/write.rs` line 108). -/
def iterAfter : Nat → Nat
  | 0 => 0
  | n + 1 => (retryStep (iterAfter n)).2

/-- Whether retry number `n` (0-indexed) yields the scheduler. -/
def retryYields (n : Nat) : Bool := (retryStep (iterAfter n)).1

/-- First vacant index of a slab (`slab::Slab` always inserts into a vacant
slot; modelled as lowest-index vacancy, else the append position). -/
def firstFree : List (Option γ) → Option Nat
  | [] => none
  | none :: _ => some 0
  | some _ :: t => (firstFree t).map (· + 1)

/-- `Slab::insert`: place the entry in a vacant slot and return its index. -/
def slabInsert (s : List (Option γ)) (a : γ) : Nat × List (Option γ) :=
  match firstFree s with
  | some j => (j, s.set j (some a))
  | none => (s.length, s ++ [some a])

/-- `ReadHandle::new` (`src/read/mod.rs` lines 102-118): allocate a fresh
epoch counter initialized to `AtomicUsize::new(0)` and insert it into the
epoch registry; the registry is modelled by the stored counter values.  Both
`impl Clone for ReadHandle` (lines 75-85) and `ReadHandleFactory::handle`
(`src/read/factory.rs` lines 56-62) call exactly this constructor. -/
def readHandleNew (reg : List (Option Nat)) : Nat × List (Option Nat) :=
  slabInsert reg 0

/-- `Operation` from `src/lib.rs` lines 184-198, with the internal key
(`InnerKey`) modelled as the slot index. -/
inductive Operation (V : Type) where
  | NoOp
  | Replace (k : Nat) (v : V)
  | Add (v : V)
  | Remove (k : Nat)
  | Clear
deriving DecidableEq

/-- The effect of an operation on a slot buffer, per the §3 data contract of
the slot container (`Add` appends a fresh slot, `Replace`/`Remove` act on a
live slot, `Clear` vacates every slot without reusing ids). -/
def applyData : Operation V → Buf V → Buf V
  | .NoOp, b => b
  | .Replace k v, b => b.set k (some v)
  | .Add v, b => b ++ [some v]
  | .Remove k, b => b.set k none
  | .Clear, b => b.map fun _ => none

/-- The values whose destructor runs when the operation is applied on the
drop-owning view of a buffer (spec §4.4 step 2: `Remove` and `Replace`
invoke destructors of the displaced values exactly once; `Clear` destructs
every live value; `Add` and `NoOp` destruct nothing). -/
def destructs : Operation V → Buf V → List V
  | .NoOp, _ => []
  | .Replace k _, b => (getUnbounded b k).toList
  | .Add _, _ => []
  | .Remove k, b => (getUnbounded b k).toList
  | .Clear, b => bufValues b

/-- Apply the staged pending operation, if any. -/
def applyPending : Option (Operation V) → Buf V → Buf V
  | none, b => b
  | some op, b => applyData op b

/-- Destructor runs of replaying the staged pending operation, if any. -/
def destructsPending : Option (Operation V) → Buf V → List V
  | none, _ => []
  | some op, b => destructs op b

/-- Modelled from the spec: the writer's state (`WriteHandle`, absent from
`src/`; the `write.rs` present is an incompatible historical `evmap`
variant).  `front` is the `Inner` the atomic pointer cell exposes to
readers, `back` the writer-owned buffer, `pending` the single cached
operation not yet replayed onto `back`, and `destructed` the values whose
destructor has run so far (in order, with multiplicity). -/
structure LiveState (V : Type) where
  front : Inner V
  back : Inner V
  pending : Option (Operation V)
  destructed : List V
deriving DecidableEq

/-- `ev_slotmap::new` from `src/lib.rs` lines 210-223: both buffers start
empty; the writer-owned copy is marked ready, the reader-visible one is not;
no operation is pending. -/
def initState : LiveState V := ⟨⟨[], false⟩, ⟨[], true⟩, none, []⟩

/-- Modelled from the spec: the refresh protocol (§4.4) with a newly staged
operation `op`.  Step 2 replays the previous pending operation on the
drop-owning view of the back buffer (running destructors); step 3 applies
`op` in the drop-suppressed view and marks the buffer ready; the pointer
swap then makes the back buffer the new front and the old front the new
back, with `op` recorded as the pending operation. -/
def refreshWith (s : LiveState V) (op : Operation V) : LiveState V :=
  let synced := applyPending s.pending s.back.data
  { front := ⟨applyData op synced, true⟩
    back := s.front
    pending := some op
    destructed := s.destructed ++ destructsPending s.pending s.back.data }

/-- Modelled from the spec: the internal slot id captured by `insert` — the
id the slot container returns when `Add` appends to the synced back buffer
(§4.4 step 3). -/
def insertKey (s : LiveState V) : Nat :=
  (applyPending s.pending s.back.data).length

/-- Modelled from the spec: `WriteHandle::insert` stages `Add(value)` and
refreshes before returning the fresh key. -/
def insertW (s : LiveState V) (v : V) : LiveState V × Nat :=
  (refreshWith s (.Add v), insertKey s)

/-- Modelled from the spec: `WriteHandle::update` stages
`Replace(internal_id, value)` and refreshes before returning; a key that is
not live is a fatal programmer error (§7), modelled as `none`. -/
def updateW (s : LiveState V) (k : Nat) (v : V) : Option (LiveState V) :=
  if (getUnbounded s.front.data k).isSome then
    some (refreshWith s (.Replace k v))
  else none

/-- Modelled from the spec: `WriteHandle::remove` stages
`Remove(internal_id)` and refreshes before returning; a key that is not live
is a fatal programmer error (§7), modelled as `none`. -/
def removeW (s : LiveState V) (k : Nat) : Option (LiveState V) :=
  if (getUnbounded s.front.data k).isSome then
    some (refreshWith s (.Remove k))
  else none

/-- Modelled from the spec: `WriteHandle::clear` stages `Clear` and
refreshes before returning. -/
def clearW (s : LiveState V) : LiveState V := refreshWith s .Clear

/-- Modelled from the spec: `WriteHandle::refresh` stages `NoOp`. -/
def refreshOnly (s : LiveState V) : LiveState V := refreshWith s .NoOp

/-- One writer API call, with its argument values. -/
inductive Call (V : Type) where
  | ins (v : V)
  | upd (k : Nat) (v : V)
  | rem (k : Nat)
  | clr
  | rfr
deriving DecidableEq

/-- The operation a call stages (spec §4.4 operation table). -/
def callOp : Call V → Operation V
  | .ins v => .Add v
  | .upd k v => .Replace k v
  | .rem k => .Remove k
  | .clr => .Clear
  | .rfr => .NoOp

/-- Execute one writer API call. -/
def stepCall (s : LiveState V) : Call V → Option (LiveState V)
  | .ins v => some (insertW s v).1
  | .upd k v => updateW s k v
  | .rem k => removeW s k
  | .clr => some (clearW s)
  | .rfr => some (refreshOnly s)

/-- Execute a sequence of writer API calls. -/
def runCalls (s : LiveState V) : List (Call V) → Option (LiveState V)
  | [] => some s
  | c :: cs =>
    match stepCall s c with
    | none => none
    | some s' => runCalls s' cs

/-- The state left behind by writer teardown. -/
structure FinalState (V : Type) where
  cell : Option (Inner V)
  backFree : Inner V
  destructed : List V
deriving DecidableEq

/-- Modelled from the spec: writer drop (§4.4).  Stage `NoOp` and refresh,
refresh again, swap the cell to null, then drop the back buffer without
running value destructors and the former front buffer with destructors
(using `Inner::do_drop` from `src/inner.rs` lines 46-50 to reinterpret the
`ManuallyDrop` values as drop-owning). -/
def teardown (s : LiveState V) : FinalState V :=
  let s1 := refreshWith s .NoOp
  let s2 := refreshWith s1 .NoOp
  ⟨none, s2.back, s2.destructed ++ bufValues s2.front.data⟩

/-- A writer-API command with values allocated internally: each inserted or
replacement value receives a fresh identity, so that destructor runs can be
counted per value. -/
inductive Cmd where
  | ins
  | upd (k : Nat)
  | rem (k : Nat)
  | clr
  | rfr
deriving DecidableEq

/-- The instrumented map: writer state over value identities plus the next
fresh identity. -/
structure World where
  st : LiveState Nat
  nextId : Nat
deriving DecidableEq

/-- Execute one command, allocating a fresh value identity for `ins` and
`upd`. -/
def stepCmd (w : World) : Cmd → Option World
  | .ins => some ⟨(insertW w.st w.nextId).1, w.nextId + 1⟩
  | .upd k => (updateW w.st k w.nextId).map fun s => ⟨s, w.nextId + 1⟩
  | .rem k => (removeW w.st k).map fun s => ⟨s, w.nextId⟩
  | .clr => some ⟨clearW w.st, w.nextId⟩
  | .rfr => some ⟨refreshOnly w.st, w.nextId⟩

/-- Execute a command script. -/
def runScript (w : World) : List Cmd → Option World
  | [] => some w
  | c :: cs =>
    match stepCmd w c with
    | none => none
    | some w' => runScript w' cs

/-- The freshly created instrumented map. -/
def initWorld : World := ⟨initState, 0⟩

/-- `impl Serialize for ReadHandle` (`src/impl_serde.rs` lines 10-26): the
wire value is `None` when the pointer cell is null, otherwise the
serialization of the pointed-to `Inner` — per spec §6 the front buffer's
value sequence with ids preserved, modelled as its slot buffer. -/
def serializeRH (cell : Option (Inner V)) : Option (Buf V) :=
  cell.map Inner.data

/-- Modelled from the spec: `Inner`'s deserialization (its serde
implementation is absent from `src/`); §6 requires deserialization to
produce populated, ready buffers. -/
def deserializeInner (w : Buf V) : Inner V := ⟨w, true⟩

/-- Modelled from the spec: the default `Inner` used when the wire value is
`None` — constructed empty and not ready. -/
def defaultInner : Inner V := ⟨[], false⟩

/-- `impl Deserialize for WriteHandle` (`src/impl_serde.rs` lines 60-82):
deserialize an `Option<Inner>`, fall back to the default, clone it into the
writer-owned buffer and mark that clone ready, and build the handle pair
with the reader pointing at the deserialized buffer and nothing pending. -/
def deserializeWH (w : Option (Buf V)) : LiveState V :=
  let inner := match w with
    | some d => deserializeInner d
    | none => defaultInner
  ⟨inner, Inner.mark_ready ⟨inner.data, inner.ready⟩, none, []⟩

/-- Spec invariant 2: the back buffer is exactly the staged pending
operation behind the reader-visible front buffer. -/
def Synced (s : LiveState V) : Prop :=
  applyPending s.pending s.back.data = s.front.data

/-- The §7 key contract: `Replace` and `Remove` target a live slot. -/
def validOp : Operation V → Buf V → Prop
  | .Replace k _, b => (getUnbounded b k).isSome = true
  | .Remove k, b => (getUnbounded b k).isSome = true
  | _, _ => True

/-- How many inhabitants of value identity `id` the operation installs. -/
def installsCount : Operation Nat → Nat → Nat
  | .Add v, id => if v = id then 1 else 0
  | .Replace _ v, id => if v = id then 1 else 0
  | _, _ => 0

/-- Occurrence count of `x` in a list (with multiplicity). -/
def cnt [DecidableEq γ] (x : γ) : List γ → Nat
  | [] => 0
  | a :: t => cnt x t + if a = x then 1 else 0

/-- Destructor accounting invariant: for every allocated value identity,
the destructor runs already performed, plus the runs the pending operation
will perform when replayed on the back buffer, plus the inhabitants in the
front buffer (destructed when the front is dropped as drop-owner at
teardown) total exactly one; unallocated identities total zero. -/
def dropInv (w : World) : Prop :=
  ∀ id, cnt id w.st.destructed
      + cnt id (destructsPending w.st.pending w.st.back.data)
      + cnt (some id) w.st.front.data
      = if id < w.nextId then 1 else 0

end EvSlotMap

namespace EvSlotMap

variable {V : Type} {γ : Type}

theorem synced_initState : Synced (initState (V := V)) := rfl

theorem synced_refreshWith {s : LiveState V} (op : Operation V) (h : Synced s) :
    Synced (refreshWith s op) := by
  simp only [Synced, refreshWith, applyPending] at h ⊢
  rw [h]

theorem synced_stepCall {s s' : LiveState V} {c : Call V}
    (h : stepCall s c = some s') (hs : Synced s) : Synced s' := by
  cases c with
  | ins v =>
    simp only [stepCall, insertW, Option.some.injEq] at h
    exact h ▸ synced_refreshWith _ hs
  | upd k v =>
    simp only [stepCall, updateW] at h
    split at h
    · exact (Option.some.injEq _ _ ▸ h) ▸ synced_refreshWith _ hs
    · cases h
  | rem k =>
    simp only [stepCall, removeW] at h
    split at h
    · exact (Option.some.injEq _ _ ▸ h) ▸ synced_refreshWith _ hs
    · cases h
  | clr =>
    simp only [stepCall, clearW, Option.some.injEq] at h
    exact h ▸ synced_refreshWith _ hs
  | rfr =>
    simp only [stepCall, refreshOnly, Option.some.injEq] at h
    exact h ▸ synced_refreshWith _ hs

theorem cnt_append [DecidableEq γ] (x : γ) (l₁ l₂ : List γ) :
    cnt x (l₁ ++ l₂) = cnt x l₁ + cnt x l₂ := by
  induction l₁ with
  | nil => simp [cnt]
  | cons a t ih =>
    show cnt x (a :: (t ++ l₂)) = cnt x (a :: t) + cnt x l₂
    simp only [cnt, ih]
    omega

theorem cnt_set_balance [DecidableEq γ] (l : List γ) (k : Nat) (y x : γ)
    (h : k < l.length) :
    cnt x (l.set k y) + (if l[k]? = some x then 1 else 0)
      = cnt x l + (if y = x then 1 else 0) := by
  induction l generalizing k with
  | nil => simp at h
  | cons a t ih =>
    cases k with
    | zero =>
      simp only [List.set, List.getElem?_cons_zero, cnt, Option.some.injEq]
      omega
    | succ k =>
      have hk : k < t.length := by simpa using h
      have ihk := ih k hk
      simp only [List.set, List.getElem?_cons_succ, cnt]
      omega

theorem cnt_bufValues (b : Buf Nat) (id : Nat) :
    cnt id (bufValues b) = cnt (some id) b := by
  induction b with
  | nil => rfl
  | cons a t ih =>
    cases a with
    | none => simpa [bufValues, cnt] using ih
    | some v =>
      simp only [bufValues, List.filterMap_cons, id_eq, cnt,
        Option.some.injEq] at ih ⊢
      omega

theorem cnt_cleared (b : Buf Nat) (id : Nat) :
    cnt (some id) (b.map fun _ => (none : Option Nat)) = 0 := by
  induction b with
  | nil => rfl
  | cons a t ih => simpa [cnt] using ih

theorem cnt_pos_of_mem [DecidableEq γ] {x : γ} {l : List γ} (h : x ∈ l) :
    0 < cnt x l := by
  induction l with
  | nil => cases h
  | cons a t ih =>
    rcases List.mem_cons.mp h with h1 | h1
    · simp [cnt, h1]
    · have := ih h1
      simp only [cnt]
      omega

theorem getUnbounded_eq_some {b : Buf V} {k : Nat}
    (h : (getUnbounded b k).isSome = true) : ∃ v, b[k]? = some (some v) := by
  unfold getUnbounded at h
  cases hb : b[k]? with
  | none => rw [hb] at h; simp at h
  | some o =>
    cases o with
    | none => rw [hb] at h; simp at h
    | some v => exact ⟨v, rfl⟩

theorem getUnbounded_lt {b : Buf V} {k : Nat}
    (h : (getUnbounded b k).isSome = true) : k < b.length := by
  obtain ⟨v, hb⟩ := getUnbounded_eq_some h
  exact (List.getElem?_eq_some.mp hb).1

theorem apply_count (op : Operation Nat) (b : Buf Nat) (id : Nat)
    (hv : validOp op b) :
    cnt (some id) (applyData op b) + cnt id (destructs op b)
      = cnt (some id) b + installsCount op id := by
  cases op with
  | NoOp => simp [applyData, destructs, installsCount, cnt]
  | Add v =>
    simp only [applyData, destructs, installsCount, cnt_append, cnt,
      Option.some.injEq]
    omega
  | Replace k v =>
    obtain ⟨w, hb⟩ := getUnbounded_eq_some hv
    have hk : k < b.length := (List.getElem?_eq_some.mp hb).1
    have hgu : getUnbounded b k = some w := by simp [getUnbounded, hb]
    have hbal := cnt_set_balance b k (some v) (some id) hk
    rw [hb] at hbal
    simp only [Option.some.injEq] at hbal
    simp only [applyData, destructs, installsCount, hgu, Option.toList_some,
      cnt]
    omega
  | Remove k =>
    obtain ⟨w, hb⟩ := getUnbounded_eq_some hv
    have hk : k < b.length := (List.getElem?_eq_some.mp hb).1
    have hgu : getUnbounded b k = some w := by simp [getUnbounded, hb]
    have hbal := cnt_set_balance b k (none : Option Nat) (some id) hk
    rw [hb] at hbal
    simp only [Option.some.injEq, reduceCtorEq, if_false] at hbal
    simp only [applyData, destructs, installsCount, hgu, Option.toList_some,
      cnt]
    omega
  | Clear =>
    simp only [applyData, destructs, installsCount, cnt_cleared,
      cnt_bufValues]
    omega

theorem synced_runCalls {cs : List (Call V)} {s s' : LiveState V}
    (h : runCalls s cs = some s') (hs : Synced s) : Synced s' := by
  induction cs generalizing s with
  | nil => cases h; exact hs
  | cons c cs ih =>
    simp only [runCalls] at h
    cases hc : stepCall s c with
    | none => rw [hc] at h; cases h
    | some t => rw [hc] at h; exact ih h (synced_stepCall hc hs)

theorem updateW_spec {s : LiveState V} {k : Nat} {v : V} {s' : LiveState V}
    (h : updateW s k v = some s') :
    (getUnbounded s.front.data k).isSome = true
      ∧ s' = refreshWith s (.Replace k v) := by
  unfold updateW at h
  split at h
  next hc =>
    injection h with h
    exact ⟨hc, h.symm⟩
  next => cases h

theorem removeW_spec {s : LiveState V} {k : Nat} {s' : LiveState V}
    (h : removeW s k = some s') :
    (getUnbounded s.front.data k).isSome = true
      ∧ s' = refreshWith s (.Remove k) := by
  unfold removeW at h
  split at h
  next hc =>
    injection h with h
    exact ⟨hc, h.symm⟩
  next => cases h

theorem destructsPending_some (op : Operation V) (b : Buf V) :
    destructsPending (some op) b = destructs op b := rfl

theorem dropInv_initWorld : dropInv initWorld := by
  intro id
  simp [initWorld, initState, dropInv, destructsPending, cnt]

theorem dropInv_refresh (w : World) (op : Operation Nat) (n' : Nat)
    (hs : Synced w.st) (hi : dropInv w) (hv : validOp op w.st.front.data)
    (hcase : ((∀ j, installsCount op j = if w.nextId = j then 1 else 0)
        ∧ n' = w.nextId + 1)
      ∨ ((∀ j, installsCount op j = 0) ∧ n' = w.nextId)) :
    dropInv ⟨refreshWith w.st op, n'⟩ := by
  intro id
  have hid := hi id
  have hac := apply_count op w.st.front.data id hv
  unfold Synced at hs
  simp only [refreshWith, destructsPending_some, cnt_append]
  rw [hs]
  rcases hcase with ⟨hin, hn⟩ | ⟨hin, hn⟩ <;> subst hn
  · have hii := hin id
    by_cases hlt : id < w.nextId
    · rw [if_pos hlt] at hid
      rw [if_pos (by omega)]
      rw [if_neg (by omega)] at hii
      omega
    · by_cases heq : id = w.nextId
      · rw [if_neg hlt] at hid
        rw [if_pos (by omega)]
        rw [if_pos (by omega)] at hii
        omega
      · rw [if_neg hlt] at hid
        rw [if_neg (by omega)]
        rw [if_neg (by omega)] at hii
        omega
  · have hii := hin id
    by_cases hlt : id < w.nextId
    · rw [if_pos hlt] at hid
      rw [if_pos hlt]
      omega
    · rw [if_neg hlt] at hid
      rw [if_neg hlt]
      omega

theorem worldInv_stepCmd {w w' : World} {c : Cmd} (h : stepCmd w c = some w')
    (hs : Synced w.st) (hi : dropInv w) : Synced w'.st ∧ dropInv w' := by
  cases c with
  | ins =>
    simp only [stepCmd, insertW, Option.some.injEq] at h
    subst h
    exact ⟨synced_refreshWith _ hs,
      dropInv_refresh w (.Add w.nextId) (w.nextId + 1) hs hi trivial
        (Or.inl ⟨fun j => rfl, rfl⟩)⟩
  | upd k =>
    simp only [stepCmd] at h
    cases hu : updateW w.st k w.nextId with
    | none => rw [hu] at h; cases h
    | some s =>
      rw [hu] at h
      simp only [Option.map_some', Option.some.injEq] at h
      obtain ⟨hc, hsEq⟩ := updateW_spec hu
      subst hsEq
      subst h
      exact ⟨synced_refreshWith _ hs,
        dropInv_refresh w (.Replace k w.nextId) (w.nextId + 1) hs hi hc
          (Or.inl ⟨fun j => rfl, rfl⟩)⟩
  | rem k =>
    simp only [stepCmd] at h
    cases hu : removeW w.st k with
    | none => rw [hu] at h; cases h
    | some s =>
      rw [hu] at h
      simp only [Option.map_some', Option.some.injEq] at h
      obtain ⟨hc, hsEq⟩ := removeW_spec hu
      subst hsEq
      subst h
      exact ⟨synced_refreshWith _ hs,
        dropInv_refresh w (.Remove k) w.nextId hs hi hc
          (Or.inr ⟨fun j => rfl, rfl⟩)⟩
  | clr =>
    simp only [stepCmd, clearW, Option.some.injEq] at h
    subst h
    exact ⟨synced_refreshWith _ hs,
      dropInv_refresh w .Clear w.nextId hs hi trivial
        (Or.inr ⟨fun j => rfl, rfl⟩)⟩
  | rfr =>
    simp only [stepCmd, refreshOnly, Option.some.injEq] at h
    subst h
    exact ⟨synced_refreshWith _ hs,
      dropInv_refresh w .NoOp w.nextId hs hi trivial
        (Or.inr ⟨fun j => rfl, rfl⟩)⟩

theorem worldInv_runScript {cmds : List Cmd} {w w' : World}
    (h : runScript w cmds = some w')
    (hs : Synced w.st) (hi : dropInv w) : Synced w'.st ∧ dropInv w' := by
  induction cmds generalizing w with
  | nil => cases h; exact ⟨hs, hi⟩
  | cons c cs ih =>
    simp only [runScript] at h
    cases hc : stepCmd w c with
    | none => rw [hc] at h; cases h
    | some t =>
      rw [hc] at h
      obtain ⟨hs', hi'⟩ := worldInv_stepCmd hc hs hi
      exact ih h hs' hi'

theorem teardown_cnt (s : LiveState Nat) (id : Nat) :
    cnt id (teardown s).destructed
      = cnt id s.destructed + cnt id (destructsPending s.pending s.back.data)
        + cnt (some id) s.front.data := by
  simp only [teardown, refreshWith, destructsPending_some, destructs, applyData,
    applyPending, cnt_append, cnt_bufValues, cnt]
  omega

theorem land_highBit_eq_zero {n : Nat} (h : n < highBit) : n &&& highBit = 0 := by
  have ht : n.testBit 63 = false :=
    Nat.testBit_eq_false_of_lt (by simpa [highBit] using h)
  have hand := Nat.and_two_pow n 63
  rw [ht] at hand
  simpa [highBit] using hand

theorem iterAfter_eq (n : Nat) : iterAfter n = min n 20 := by
  induction n with
  | zero => rfl
  | succ n ih =>
    simp only [iterAfter, ih, retryStep, bne_iff_ne, ne_eq]
    split
    next h => omega
    next h => omega

theorem runCalls_append (s : LiveState V) (pre : List (Call V)) (c : Call V) :
    runCalls s (pre ++ [c]) = (runCalls s pre).bind fun t => stepCall t c := by
  induction pre generalizing s with
  | nil =>
    show runCalls s [c] = (some s).bind fun t => stepCall t c
    cases h : stepCall s c <;> simp [runCalls, h]
  | cons a t ih =>
    show runCalls s (a :: (t ++ [c])) = _
    simp only [runCalls]
    cases h : stepCall s a <;> simp [h, ih]

theorem stepCall_pending {s s' : LiveState V} {c : Call V}
    (h : stepCall s c = some s') : s'.pending = some (callOp c) := by
  cases c with
  | ins v =>
    simp only [stepCall, insertW, Option.some.injEq] at h
    subst h
    rfl
  | upd k v =>
    rw [(updateW_spec h).2]
    rfl
  | rem k =>
    rw [(removeW_spec h).2]
    rfl
  | clr =>
    simp only [stepCall, clearW, Option.some.injEq] at h
    subst h
    rfl
  | rfr =>
    simp only [stepCall, refreshOnly, Option.some.injEq] at h
    subst h
    rfl

theorem firstFree_spec {l : List (Option γ)} {j : Nat}
    (h : firstFree l = some j) : l[j]? = some none := by
  induction l generalizing j with
  | nil => cases h
  | cons a t ih =>
    cases a with
    | none =>
      simp only [firstFree, Option.some.injEq] at h
      subst h
      simp
    | some x =>
      simp only [firstFree, Option.map_eq_some'] at h
      obtain ⟨j', hj', hjeq⟩ := h
      subst hjeq
      simpa using ih hj'

/-- C1: every mutating writer operation (`insert`, `update`, `remove`,
`clear`) performs a full refresh before it returns, so any read that begins
after the call returns — through any reader handle, all of which share the
atomic pointer cell — observes the effect of that write without a separate
refresh call: after `insert` the returned key reads back the inserted value
from a ready front buffer, after `update` the key reads the new value, after
`remove` the key reads absent, and after `clear` every key reads absent. -/
theorem claim_C1 (cs : List (Call V)) (s : LiveState V)
    (h : runCalls initState cs = some s) :
    (∀ v : V, getOf (some (insertW s v).1.front) (insertW s v).2 = some v
      ∧ (insertW s v).1.front.ready = true)
  ∧ (∀ k v s', updateW s k v = some s' →
      getOf (some s'.front) k = some v ∧ s'.front.ready = true)
  ∧ (∀ k s', removeW s k = some s' → getOf (some s'.front) k = none)
  ∧ (∀ k, getOf (some (clearW s).front) k = none
      ∧ (clearW s).front.ready = true) := by
  have hs := synced_runCalls h synced_initState
  unfold Synced at hs
  refine ⟨fun v => ⟨?_, rfl⟩, fun k v s' h' => ?_, fun k s' h' => ?_,
    fun k => ⟨?_, rfl⟩⟩
  · simp [getOf, get_rawOf, handleOf, insertW, refreshWith, insertKey,
      getUnbounded, applyData, List.getElem?_concat_length]
  · obtain ⟨hc, hEq⟩ := updateW_spec h'
    subst hEq
    have hk : k < s.front.data.length := getUnbounded_lt hc
    refine ⟨?_, rfl⟩
    simp [getOf, get_rawOf, handleOf, refreshWith, applyData, hs,
      getUnbounded, List.getElem?_set, hk]
  · obtain ⟨hc, hEq⟩ := removeW_spec h'
    subst hEq
    simp only [getOf, get_rawOf, handleOf, refreshWith, applyData,
      getUnbounded, List.getElem?_set, if_pos, if_true]
    split <;> simp [List.getElem?_set] <;> split <;> simp
  · simp only [getOf, get_rawOf, handleOf, clearW, refreshWith, applyData,
      getUnbounded, List.getElem?_map, if_true]
    cases hx : (applyPending s.pending s.back.data)[k]? <;> simp [hx]

/-- Witness for C1: on the freshly created map, `insert` returns a key that
immediately reads back the inserted value through the reader surface. -/
theorem claim_C1_witness :
    getOf (some (insertW (initState : LiveState Nat) 42).1.front)
      (insertW (initState : LiveState Nat) 42).2 = some 42 :=
  ((claim_C1 [] initState rfl).1 42).1

/-- C2: between refreshes the writer holds at most one staged pending
operation — there is no operation log: after any sequence of writer API
calls, replaying just the single `pending` operation (an `Option`, hence at
most one) onto the back buffer reproduces the front buffer exactly, the
pending slot is empty on the fresh map, and after any call sequence it holds
precisely the operation of the last call. -/
theorem claim_C2 (cs : List (Call V)) (s : LiveState V)
    (h : runCalls initState cs = some s) :
    applyPending s.pending s.back.data = s.front.data
  ∧ (cs = [] → s.pending = none)
  ∧ (∀ pre c, cs = pre ++ [c] → s.pending = some (callOp c)) := by
  refine ⟨synced_runCalls h synced_initState, ?_, ?_⟩
  · rintro rfl
    cases h
    rfl
  · rintro pre c rfl
    rw [runCalls_append] at h
    cases hp : runCalls initState pre with
    | none => rw [hp] at h; cases h
    | some t =>
      rw [hp] at h
      exact stepCall_pending h

/-- Witness for C2 after a single `insert`: the staged `Add` alone brings
the back buffer up to the front buffer. -/
theorem claim_C2_witness :
    applyPending
      (⟨⟨[some 7], true⟩, ⟨[], false⟩, some (Operation.Add 7), []⟩ :
          LiveState Nat).pending
      (⟨⟨[some 7], true⟩, ⟨[], false⟩, some (Operation.Add 7), []⟩ :
          LiveState Nat).back.data
    = (⟨⟨[some 7], true⟩, ⟨[], false⟩, some (Operation.Add 7), []⟩ :
          LiveState Nat).front.data :=
  (claim_C2 [Call.ins 7]
    ⟨⟨[some 7], true⟩, ⟨[], false⟩, some (Operation.Add 7), []⟩ rfl).1

/-- C3: over any sequence of writer API calls followed by writer drop, every
value that was inserted (and later removed, overwritten, cleared, or still
live at the drop) has its destructor run exactly once; and for every value
live at any reachable instant, exactly one of the two buffers drop-owns it —
tearing down at that instant runs its destructor zero times via the back
buffer replay and exactly once via the front buffer, whose single inhabitant
of the value is the drop-owning one (the other buffer's copy is dropped
without destructor). -/
theorem claim_C3 (cmds : List Cmd) (w : World)
    (h : runScript initWorld cmds = some w) :
    (∀ id, id < w.nextId → cnt id (teardown w.st).destructed = 1)
  ∧ (∀ id, id ∈ bufValues w.st.front.data →
      cnt id (destructsPending w.st.pending w.st.back.data) = 0
      ∧ cnt (some id) w.st.front.data = 1
      ∧ cnt id w.st.destructed = 0) := by
  obtain ⟨hs, hi⟩ := worldInv_runScript h synced_initState dropInv_initWorld
  constructor
  · intro id hid
    have hinv := hi id
    rw [if_pos hid] at hinv
    rw [teardown_cnt]
    omega
  · intro id hmem
    have hinv := hi id
    have hpos : 0 < cnt (some id) w.st.front.data := by
      have := cnt_pos_of_mem hmem
      rwa [cnt_bufValues] at this
    by_cases hlt : id < w.nextId
    · rw [if_pos hlt] at hinv
      exact ⟨by omega, by omega, by omega⟩
    · rw [if_neg hlt] at hinv
      omega

/-- Witness for C3: one inserted value, writer dropped, destructor count is
exactly one. -/
theorem claim_C3_witness :
    cnt 0 (teardown (⟨⟨[some 0], true⟩, ⟨[], false⟩,
        some (Operation.Add 0), []⟩ : LiveState Nat)).destructed = 1 :=
  (claim_C3 [Cmd.ins]
    ⟨⟨⟨[some 0], true⟩, ⟨[], false⟩, some (Operation.Add 0), []⟩, 1⟩ rfl).1 0
    (by decide)

/-- C4: on a map whose reader-visible buffer has `ready = false` (no refresh
has completed), `get` returns absent for every key, `read` returns absent,
and `is_destroyed` returns false. -/
theorem claim_C4 (V : Type) (inner : Inner V) (h : inner.ready = false) :
    (∀ k, getOf (some inner) k = none)
  ∧ readOf (some inner) = none
  ∧ is_destroyedOf (some inner) = false := by
  refine ⟨fun k => ?_, ?_, rfl⟩
  · simp [getOf, get_rawOf, handleOf, h]
  · simp [readOf, handleOf, h]

/-- Witness for C4 on a concrete not-ready buffer. -/
theorem claim_C4_witness :
    getOf (some (⟨[some 5], false⟩ : Inner Nat)) 0 = none :=
  (claim_C4 Nat ⟨[some 5], false⟩ rfl).1 0

/-- C5: after the writer is dropped the atomic pointer cell is null, `get`
returns absent for every key, `read` returns absent, and `is_destroyed`
returns true; moreover `is_destroyed` returns true exactly when the cell is
null. -/
theorem claim_C5 (V : Type) :
    (∀ cell : Option (Inner V), is_destroyedOf cell = true ↔ cell = none)
  ∧ (∀ s : LiveState V, (teardown s).cell = none)
  ∧ (∀ k, getOf (none : Option (Inner V)) k = none)
  ∧ readOf (none : Option (Inner V)) = none
  ∧ is_destroyedOf (none : Option (Inner V)) = true := by
  refine ⟨fun cell => ?_, fun s => rfl, fun k => rfl, rfl, rfl⟩
  simp [is_destroyedOf, handleOf, Option.isNone_iff_eq_none]

/-- C6: the writer's quiescence wait judges a reader with a previously
observed non-parked epoch to have moved on exactly when the freshly loaded
epoch differs from the observed value, or has the parked bit set, or is
zero; a reader failing all three (equal, non-parked, non-zero) is exactly
the condition that forces a retry; and retries spin for the first 20
iterations, after which every retry yields the scheduler. -/
theorem claim_C6 :
    (∀ now last : Nat, last &&& highBit = 0 →
      (readerMovedOn now last = true
        ↔ (now ≠ last ∨ now &&& highBit ≠ 0 ∨ now = 0)))
  ∧ (∀ now last : Nat, readerMovedOn now last = false
      ↔ (now = last ∧ now &&& highBit = 0 ∧ now ≠ 0))
  ∧ (∀ n, retryYields n = true ↔ 20 ≤ n) := by
  refine ⟨fun now last _ => ?_, fun now last => ?_, fun n => ?_⟩
  · simp [readerMovedOn, or_assoc]
  · simp only [readerMovedOn, Bool.or_eq_false_iff, bne_eq_false_iff_eq,
      beq_eq_false_iff_ne, ne_eq]
    constructor
    · rintro ⟨⟨h1, h2⟩, h3⟩
      exact ⟨h1, by simpa using h2, h3⟩
    · rintro ⟨h1, h2, h3⟩
      exact ⟨⟨h1, by simpa using h2⟩, h3⟩
  · unfold retryYields retryStep
    rw [iterAfter_eq]
    split
    next h =>
      have hn : ¬ 20 ≤ n := by
        simp only [bne_iff_ne, ne_eq] at h
        omega
      simp [hn]
    next h =>
      have hn : 20 ≤ n := by
        simp only [bne_iff_ne, ne_eq, not_not] at h
        omega
      simp [hn]

/-- Witness for C6: a changed epoch counts as moved on, and retry 25
yields. -/
theorem claim_C6_witness :
    (readerMovedOn 7 5 = true ↔ (7 ≠ 5 ∨ 7 &&& highBit ≠ 0 ∨ 7 = 0))
  ∧ (retryYields 25 = true ↔ 20 ≤ 25) :=
  ⟨claim_C6.1 7 5 (by decide), claim_C6.2.2 25⟩

/-- C7: a single read first increments the local count and publishes
`count + 1` (parked bit clear) to the shared epoch counter, and only then
loads the atomic pointer cell (the publish event strictly precedes the load
event); if the loaded pointer is null, the reader writes
`(count + 1) | parked_bit` back to its epoch counter and the read returns
absent. -/
theorem claim_C7 (V : Type) (s : RState) (cell : Option (Inner V))
    (h : s.myEpoch + 1 < highBit) :
    (handleSteps s cell).1.myEpoch = s.myEpoch + 1
  ∧ ((handleSteps s cell).2.2)[0]? = some (REvent.publish (s.myEpoch + 1))
  ∧ ((handleSteps s cell).2.2)[1]? = some (REvent.loadPtr cell.isNone)
  ∧ (s.myEpoch + 1) &&& highBit = 0
  ∧ (cell = none →
      (handleSteps s cell).2.1 = none
      ∧ (handleSteps s cell).1.epoch = (s.myEpoch + 1) ||| highBit
      ∧ ((handleSteps s cell).2.2)[2]?
          = some (REvent.park ((s.myEpoch + 1) ||| highBit))) := by
  have hmod : (s.myEpoch + 1) % usizeW = s.myEpoch + 1 :=
    Nat.mod_eq_of_lt (by
      have hlt : highBit < usizeW := by norm_num [highBit, usizeW]
      omega)
  cases cell with
  | none =>
    refine ⟨?_, ?_, ?_, land_highBit_eq_zero h, fun _ => ⟨rfl, ?_, ?_⟩⟩ <;>
      simp [handleSteps, hmod]
  | some inner =>
    refine ⟨?_, ?_, ?_, land_highBit_eq_zero h, fun hc => by cases hc⟩ <;>
      simp [handleSteps, hmod]

/-- Witness for C7: a fresh reader against a destroyed map publishes epoch 1
before loading the null pointer. -/
theorem claim_C7_witness :
    ((handleSteps ⟨0, 0⟩ (none : Option (Inner Nat))).2.2)[0]?
      = some (REvent.publish 1) :=
  (claim_C7 Nat ⟨0, 0⟩ none (by decide)).2.1

/-- C8: cloning a reader handle (or producing one from the factory — both go
through `ReadHandle::new`) registers a fresh epoch counter in the registry,
at a slot distinct from the original reader's, initialized to zero, and
leaves the original reader's counter untouched — the clone never shares the
original's counter. -/
theorem claim_C8 (reg : List (Option Nat)) (i c : Nat)
    (h : reg[i]? = some (some c)) :
    (readHandleNew reg).1 ≠ i
  ∧ ((readHandleNew reg).2)[(readHandleNew reg).1]? = some (some 0)
  ∧ ((readHandleNew reg).2)[i]? = some (some c) := by
  have hi : i < reg.length := (List.getElem?_eq_some.mp h).1
  unfold readHandleNew slabInsert
  cases hf : firstFree reg with
  | some j =>
    have hj := firstFree_spec hf
    have hne : j ≠ i := by
      intro hji
      rw [hji, h] at hj
      cases hj
    have hjlen : j < reg.length := (List.getElem?_eq_some.mp hj).1
    refine ⟨hne, ?_, ?_⟩
    · simp [List.getElem?_set, hjlen]
    · simp [List.getElem?_set, hne, h]
  | none =>
    refine ⟨show reg.length ≠ i by omega, ?_, ?_⟩
    · show (reg ++ [some 0])[reg.length]? = some (some 0)
      simp [List.getElem?_concat_length]
    · show (reg ++ [some 0])[i]? = some (some c)
      simp only [List.getElem?_append]
      rw [if_pos hi]
      exact h

/-- Witness for C8 on a one-reader registry. -/
theorem claim_C8_witness :
    (readHandleNew [some 5]).1 ≠ 0 :=
  (claim_C8 [some 5] 0 5 rfl).1

/-- C9: serializing a (refreshed, live) map and deserializing the result
yields a map whose live values equal the original's — every key reads the
same value — with both buffers of the deserialized pair holding that data
and marked ready. -/
theorem claim_C9 (V : Type) (cell : Option (Inner V)) (front : Inner V)
    (h : cell = some front) (h2 : front.ready = true) :
    bufValues (deserializeWH (serializeRH cell)).front.data
      = bufValues front.data
  ∧ (∀ k, getOf (some (deserializeWH (serializeRH cell)).front) k
      = getOf cell k)
  ∧ (deserializeWH (serializeRH cell)).front.ready = true
  ∧ (deserializeWH (serializeRH cell)).back.ready = true
  ∧ (deserializeWH (serializeRH cell)).back.data
      = (deserializeWH (serializeRH cell)).front.data := by
  subst h
  refine ⟨rfl, fun k => ?_, rfl, rfl, rfl⟩
  simp [serializeRH, deserializeWH, deserializeInner, Inner.mark_ready,
    getOf, get_rawOf, handleOf, h2]

/-- Witness for C9 on a concrete one-value map. -/
theorem claim_C9_witness :
    (deserializeWH (serializeRH (some (⟨[some 3], true⟩ : Inner Nat)))).back.ready
      = true :=
  (claim_C9 Nat (some ⟨[some 3], true⟩) ⟨[some 3], true⟩ rfl rfl).2.2.2.1

/-- C10: whenever no readable buffer is available — the cell is null, or the
buffer it points to is not ready — `len` returns 0, `is_empty` returns true,
and `contains_key` returns false for every key, with no panic and no
optional result. -/
theorem claim_C10 (V : Type) (cell : Option (Inner V))
    (h : cell = none ∨ ∃ inner, cell = some inner ∧ inner.ready = false) :
    lenOf cell = 0 ∧ is_emptyOf cell = true
  ∧ ∀ k, contains_keyOf cell k = false := by
  rcases h with rfl | ⟨inner, rfl, hr⟩
  · exact ⟨rfl, rfl, fun k => rfl⟩
  · refine ⟨?_, ?_, fun k => ?_⟩ <;>
      simp [lenOf, is_emptyOf, contains_keyOf, readOf, handleOf, hr]

/-- Witness for C10 on the null cell. -/
theorem claim_C10_witness :
    lenOf (none : Option (Inner Nat)) = 0 :=
  (claim_C10 Nat none (Or.inl rfl)).1

end EvSlotMap
